import Mathlib

/-!
Shallow embedding of the Montgomery-reduction repository
(`src/main2.cpp` and `src/unnamed/part_000`).

Machine integers are modelled as `Nat` (for the C `uint32_t`/`uint64_t`
values) and `Int` (for the C `int32_t` values).  An explicit `% 2 ^ 64`
(resp. `% 2 ^ 32`) is inserted exactly where the C computation can wrap:
the 64-bit sum `x + s * n` inside REDC, the narrowing cast of
`t >> r_bit_len` to `uint32_t`, the `uint64_t` subtraction
`r * r_inv_mod - 1` in the constructor, and the `uint64_t` products and
updates inside `HenselLemma2adicRoot`.  Where the C types make overflow
impossible (for example `(x & r_mask) * n_inv_mod` with both factors
below `2 ^ 32`) no reduction is inserted.

The C `while` loops are always-terminating (their control variable
strictly decreases, or — for the Hensel inner search over the `uint64_t`
counter `t` — the loop either succeeds within two candidates or cycles
forever through the 2^64 values of `t`).  Each loop is embedded as a
fuel-indexed structural recursion returning `Option`; the fuel is chosen
at the call site to be a provable upper bound on the number of
iterations (`y + 1` for the Euclid loop whose variable `y` strictly
decreases, `n + 1` for the bit-length halving loop, `2 ^ 64` for the
Hensel search over the 64-bit counter), so `none` models only genuine
divergence.
-/

/-- Loop body of `bit_length` (both files): `while (n > 0) { n >>= 1; ++result; }`.
The first argument is fuel; `n / 2 < n` for `n ≥ 1`, so fuel `n + 1` always
suffices. -/
def bitLengthGo : Nat → Nat → Nat
  | 0, _ => 0
  | fuel + 1, n => if n = 0 then 0 else bitLengthGo fuel (n / 2) + 1

/-- `bit_length` from both source files: the number of bits needed to
represent `n`, computed by repeated halving. -/
def bit_length (n : Nat) : Nat := bitLengthGo (n + 1) n

/-- The `mod` function of both files: C truncating `%` on `int32_t`
(`Int.tmod`), followed by shifting a negative remainder up by `n`. -/
def mod (x n : Int) : Int :=
  if x.tmod n < 0 then x.tmod n + n else x.tmod n

/-- The `while (y != 0)` loop shared by `mod_mult_inv` (main2.cpp) and
`reciprocal_mod` (part_000): a simplified extended Euclidean algorithm
tracking the single Bezout coefficient pair `(a, b)` for the second input.
Returns the final `(x, a)`.  `y` strictly decreases (`x % y < y`), so fuel
`y + 1` always suffices; the coefficients are exact integers here (the
int32 range analysis is the subject of `egcdLoopChecked`). -/
def egcdLoop : Nat → Nat → Nat → Int → Int → Option (Nat × Int)
  | 0, _, _, _, _ => none
  | fuel + 1, x, y, a, b =>
    if y = 0 then some (x, a)
    else egcdLoop fuel y (x % y) b (a - (x / y : Nat) * b)

/-- `reciprocal_mod` from part_000 (identical to `mod_mult_inv` in
main2.cpp): run the Euclid loop on `x = n`, `y = r % n`, `a = 0`, `b = 1`;
fail when the final remainder is not 1, else return `mod a n` (a value in
`[0, n)`, returned as `uint32_t`). -/
def reciprocal_mod (n r : Nat) : Option Nat :=
  match egcdLoop (r % n + 1) n (r % n) 0 1 with
  | none => none
  | some (x, a) => if x = 1 then some (mod a n).toNat else none

/-- `mod_mult_inv` from main2.cpp is character-for-character the same
function as `reciprocal_mod` in part_000 (only the name differs). -/
def mod_mult_inv (n r : Nat) : Option Nat := reciprocal_mod n r

/-- Instrumented variant of `egcdLoop` that fails (`none`) as soon as an
`int32_t` intermediate of the C loop body would leave
`[-2^31, 2^31)` — the quotient `static_cast<int32_t>(x / y)`, the product
`q * b`, or the new coefficient `a - q * b` — modelling C++ signed-integer
overflow as an error.  When it returns `some`, the machine computation
coincides with the exact-integer `egcdLoop`. -/
def egcdLoopChecked : Nat → Nat → Nat → Int → Int → Option (Nat × Int)
  | 0, _, _, _, _ => none
  | fuel + 1, x, y, a, b =>
    if y = 0 then some (x, a)
    else
      if ((x / y : Nat) : Int) < 2 ^ 31 ∧
          -2 ^ 31 ≤ ((x / y : Nat) : Int) * b ∧ ((x / y : Nat) : Int) * b < 2 ^ 31 ∧
          -2 ^ 31 ≤ a - ((x / y : Nat) : Int) * b ∧ a - ((x / y : Nat) : Int) * b < 2 ^ 31 then
        egcdLoopChecked fuel y (x % y) b (a - (x / y : Nat) * b)
      else none

/-- Inner `do { a = a_prev + c * t++; f = q * a + 1; } while (f & mod_mask);`
search of `HenselLemma2adicRoot` (main2.cpp).  All quantities are
`uint64_t`, hence the `% 2 ^ 64`.  The counter `t` ranges over the 2^64
values of a `uint64_t`, after which the same candidates repeat, so fuel
`2 ^ 64` makes `none` equivalent to the C loop never exiting. -/
def henselInner : Nat → Nat → Nat → Nat → Nat → Nat → Option Nat
  | 0, _, _, _, _, _ => none
  | fuel + 1, a_prev, c, mask, q, t =>
    let a := (a_prev + c * t) % 2 ^ 64
    let f := (q * a + 1) % 2 ^ 64
    if f &&& mask = 0 then some a
    else henselInner fuel a_prev c mask q (t + 1)

/-- Outer `for (uint64_t k = 2; k <= r; k++)` loop of
`HenselLemma2adicRoot`, counted by the number of remaining iterations.
After each lift the code updates `mod_mask = mod_mask * 2 + 1` and
`c *= 2` (`uint64_t` updates, hence `% 2 ^ 64`). -/
def henselOuter : Nat → Nat → Nat → Nat → Nat → Option Nat
  | 0, a_prev, _, _, _ => some a_prev
  | steps + 1, a_prev, c, mask, q =>
    match henselInner (2 ^ 64) a_prev c mask q 0 with
    | none => none
    | some a => henselOuter steps a (c * 2 % 2 ^ 64) ((mask * 2 + 1) % 2 ^ 64) q

/-- `HenselLemma2adicRoot(r, q)` from main2.cpp: starting from
`a_prev = 1`, `c = 2`, `mod_mask = 3`, lift a root of `q·X + 1 ≡ 0`
from modulus `2^1` up to `2^r` (the `for` loop runs for
`k = 2, …, r`, i.e. `r - 1` iterations). -/
def HenselLemma2adicRoot (r q : Nat) : Option Nat :=
  henselOuter (r - 1) 1 2 3 q

/-- Construction errors of the `Montgomery` constructor, one per distinct
`throw` site in both files. -/
inductive MontError where
  | tooSmall
  | mustBeOdd
  | tooLarge
  | noInverse
deriving DecidableEq

/-- Fields of the `Montgomery` class of main2.cpp (all `uint32_t`). -/
structure Montgomery where
  n : Nat
  r_bit_len : Nat
  r_inv_mod : Nat
  r_mask : Nat
  n_inv_mod : Nat
  r2_mod_n : Nat
deriving DecidableEq

/-- Body of `Montgomery::REDC` in main2.cpp, parameterised by the fields
it reads.  `s` is the `uint64_t` product masked back below `2^32` (the
narrowing cast to `uint32_t` is exact because `s ≤ mask < 2^32`); the
`uint64_t` sum `t = x + s * n` wraps at `2 ^ 64`; the narrowing cast of
`t >> k` to `uint32_t` wraps at `2 ^ 32`.  `Montgomery2::multiply` of
part_000 has the identical body with its field names substituted. -/
def redcRaw (n k mask ninv x : Nat) : Nat :=
  let s := ((x &&& mask) * ninv) &&& mask
  let t := (x + s * n) % 2 ^ 64
  let u := (t >>> k) % 2 ^ 32
  if n ≤ u then u - n else u

/-- The `Montgomery(uint32_t _n)` constructor of main2.cpp: validate
`n < 3`, then `n % 2 == 0`, then `n > INT32_MAX` (in that order); then
compute `r_bit_len`, `r = 1 << r_bit_len` (exact: the source asserts
`r_bit_len <= 31`), `r_mask = r - 1`, `r_inv_mod = mod_mult_inv(n, r)`,
`n_inv_mod = (uint64(r) * r_inv_mod - 1) / n` (the `uint64_t` subtraction
wraps, hence the `+ (2^64 - 1)` form, which agrees with the C value also
when `r * r_inv_mod = 0`), and `r2_mod_n = (uint64(r) * r) % n`. -/
def mkMontgomery (N : Nat) : Except MontError Montgomery :=
  if N < 3 then .error .tooSmall
  else if N % 2 = 0 then .error .mustBeOdd
  else if N > 2 ^ 31 - 1 then .error .tooLarge
  else
    let r_bit_len := bit_length N
    let r := 1 <<< r_bit_len
    match mod_mult_inv N r with
    | none => .error .noInverse
    | some r_inv_mod =>
      .ok { n := N
            r_bit_len := r_bit_len
            r_inv_mod := r_inv_mod
            r_mask := r - 1
            n_inv_mod := (r * r_inv_mod + (2 ^ 64 - 1)) % 2 ^ 64 / N
            r2_mod_n := r * r % N }

/-- `Montgomery::REDC` of main2.cpp. -/
def Montgomery.REDC (m : Montgomery) (x : Nat) : Nat :=
  redcRaw m.n m.r_bit_len m.r_mask m.n_inv_mod x

/-- `Montgomery::convert_in` of main2.cpp: reduce `x` modulo `n` when
`x >= n`, then `REDC(uint64(x) * r2_mod_n)` (the product of two values
below `2^32` is exact in `uint64_t`). -/
def Montgomery.convert_in (m : Montgomery) (x : Nat) : Nat :=
  let x := if m.n ≤ x then x % m.n else x
  m.REDC (x * m.r2_mod_n)

/-- `Montgomery::convert_out` of main2.cpp. -/
def Montgomery.convert_out (m : Montgomery) (x : Nat) : Nat :=
  m.REDC x

/-- `Montgomery::multiply` of main2.cpp: `REDC(uint64(a) * b)` (exact in
`uint64_t` for `uint32_t` operands). -/
def Montgomery.multiply (m : Montgomery) (a b : Nat) : Nat :=
  m.REDC (a * b)

/-- Fields of the `Montgomery` class of part_000 (all `uint32_t`). -/
structure Montgomery2 where
  n : Nat
  r_bit_len : Nat
  r_reciprocal : Nat
  r_mask : Nat
  k : Nat
deriving DecidableEq

/-- The constructor of part_000's `Montgomery` class: identical
validation and parameter computation to main2.cpp, with field names
`r_reciprocal`/`k` and no `r2_mod_n`. -/
def mkMontgomery2 (N : Nat) : Except MontError Montgomery2 :=
  if N < 3 then .error .tooSmall
  else if N % 2 = 0 then .error .mustBeOdd
  else if N > 2 ^ 31 - 1 then .error .tooLarge
  else
    let r_bit_len := bit_length N
    let r := 1 <<< r_bit_len
    match reciprocal_mod N r with
    | none => .error .noInverse
    | some r_reciprocal =>
      .ok { n := N
            r_bit_len := r_bit_len
            r_reciprocal := r_reciprocal
            r_mask := r - 1
            k := (r * r_reciprocal + (2 ^ 64 - 1)) % 2 ^ 64 / N }

/-- `Montgomery::convert_in` of part_000: `(uint64(x) << r_bit_len) % n`
(the `uint64_t` shift wraps at `2 ^ 64`; the narrowing of the result to
`uint32_t` is exact because `… % n < n < 2^32`). -/
def Montgomery2.convert_in (m : Montgomery2) (x : Nat) : Nat :=
  (x <<< m.r_bit_len) % 2 ^ 64 % m.n

/-- `Montgomery::convert_out` of part_000:
`(uint64(x) * r_reciprocal) % n` (exact in `uint64_t`). -/
def Montgomery2.convert_out (m : Montgomery2) (x : Nat) : Nat :=
  x * m.r_reciprocal % m.n

/-- `Montgomery::multiply` of part_000: the REDC body inlined on
`x = uint64(a) * b`, using field `k` as the negated inverse of `n`. -/
def Montgomery2.multiply (m : Montgomery2) (a b : Nat) : Nat :=
  redcRaw m.n m.r_bit_len m.r_mask m.k (a * b)

/-- Bundle of arithmetic facts about a validly constructed context:
modulus `N`, radix exponent `k`, inverse `v = R⁻¹ mod N`, and
`ninv = (R·v − 1)/N`.  `key` is the exact integer identity
`R·v − 1 = ninv·N` in subtraction-free form. -/
structure Params (N k v ninv : Nat) : Prop where
  three_le : 3 ≤ N
  le_max : N ≤ 2 ^ 31 - 1
  lt_R : N < 2 ^ k
  k_le : k ≤ 31
  v_lt : v < N
  v_pos : 1 ≤ v
  key : ninv * N + 1 = 2 ^ k * v
  ninv_lt : ninv < 2 ^ k

theorem bitLengthGo_congr : ∀ f g n : Nat, n < f → n < g → bitLengthGo f n = bitLengthGo g n := by
  intro f
  induction f with
  | zero => intro g n hf; omega
  | succ f ih =>
    intro g n hf hg
    match g, hg with
    | g + 1, _ =>
      simp only [bitLengthGo]
      by_cases h0 : n = 0
      · simp [h0]
      · rw [if_neg h0, if_neg h0, ih g (n / 2) (by omega) (by omega)]

theorem bit_length_step (n : Nat) (h : n ≠ 0) : bit_length n = bit_length (n / 2) + 1 := by
  show bitLengthGo (n + 1) n = bitLengthGo (n / 2 + 1) (n / 2) + 1
  rw [show bitLengthGo (n + 1) n = bitLengthGo n (n / 2) + 1 by
        simp only [bitLengthGo]; rw [if_neg h]]
  rw [bitLengthGo_congr n (n / 2 + 1) (n / 2) (by omega) (by omega)]

theorem lt_two_pow_bit_length : ∀ n : Nat, n < 2 ^ bit_length n := by
  intro n
  induction n using Nat.strong_induction_on with
  | _ n ih =>
    by_cases h0 : n = 0
    · subst h0; decide
    · rw [bit_length_step n h0, pow_succ]
      have := ih (n / 2) (by omega)
      omega

theorem two_pow_bit_length_le : ∀ n : Nat, 0 < n → 2 ^ bit_length n ≤ 2 * n := by
  intro n
  induction n using Nat.strong_induction_on with
  | _ n ih =>
    intro hn
    by_cases h1 : n = 1
    · subst h1; decide
    · rw [bit_length_step n (by omega), pow_succ]
      have := ih (n / 2) (by omega) (by omega)
      omega

theorem bit_length_le_31 (n : Nat) (h1 : 0 < n) (h2 : n ≤ 2 ^ 31 - 1) : bit_length n ≤ 31 := by
  have h3 := two_pow_bit_length_le n h1
  have h4 : 2 ^ bit_length n < 2 ^ 32 := by omega
  have := (Nat.pow_lt_pow_iff_right (a := 2) (by omega)).mp h4
  omega

theorem tmod_gt_neg (x n : Int) (hn : 0 < n) : -n < x.tmod n := by
  rcases le_or_lt 0 x with hx | hx
  · have := Int.tmod_nonneg n hx
    omega
  · lift n to Nat using hn.le with N
    match x, hx with
    | Int.negSucc m, _ =>
      have hmod : (Int.negSucc m).tmod (N : Int) = -(((m + 1) % N : Nat) : Int) := rfl
      rw [hmod]
      have hN : 0 < N := by exact_mod_cast hn
      have : (m + 1) % N < N := Nat.mod_lt _ hN
      omega

theorem tmod_modEq (x n : Int) : x.tmod n ≡ x [ZMOD n] := by
  rw [Int.modEq_iff_dvd]
  refine ⟨x.tdiv n, ?_⟩
  have := Int.tmod_def x n
  linarith

theorem mod_nonneg_lt (x n : Int) (hn : 0 < n) : 0 ≤ mod x n ∧ mod x n < n := by
  unfold mod
  have h1 := Int.tmod_lt_of_pos x hn
  have h2 := tmod_gt_neg x n hn
  split <;> omega

theorem mod_modEq (x n : Int) (_hn : 0 < n) : mod x n ≡ x [ZMOD n] := by
  unfold mod
  split
  · calc x.tmod n + n ≡ x.tmod n + 0 [ZMOD n] :=
          Int.ModEq.add_left _ ((Int.modEq_iff_dvd.mpr (by simp)).symm)
      _ = x.tmod n := by ring
      _ ≡ x [ZMOD n] := tmod_modEq x n
  · exact tmod_modEq x n

theorem mod_eq_emod (x n : Int) (hn : 0 < n) : mod x n = x % n := by
  obtain ⟨h0, h1⟩ := mod_nonneg_lt x n hn
  calc mod x n = mod x n % n := (Int.emod_eq_of_lt h0 h1).symm
    _ = x % n := mod_modEq x n hn

theorem coprime_two_pow (n k : Nat) (hodd : n % 2 = 1) : Nat.gcd n (2 ^ k) = 1 := by
  have h2 : Nat.Coprime 2 n := (Nat.Prime.coprime_iff_not_dvd Nat.prime_two).mpr (by omega)
  exact Nat.Coprime.pow_right k h2.symm

theorem egcdLoop_gcd_bezout (n r : Nat) :
    ∀ y fuel x : Nat, ∀ a b : Int, y < fuel →
      ((x : Nat) : Int) ≡ a * (r : Int) [ZMOD (n : Int)] →
      ((y : Nat) : Int) ≡ b * (r : Int) [ZMOD (n : Int)] →
      ∃ a' : Int, egcdLoop fuel x y a b = some (Nat.gcd y x, a') ∧
        ((Nat.gcd y x : Nat) : Int) ≡ a' * (r : Int) [ZMOD (n : Int)] := by
  intro y
  induction y using Nat.strong_induction_on with
  | _ y ih =>
    intro fuel x a b hfuel hx hy
    match fuel, hfuel with
    | fuel + 1, _ =>
      by_cases hy0 : y = 0
      · subst hy0
        refine ⟨a, by simp [egcdLoop], ?_⟩
        simpa [Nat.gcd_zero_left] using hx
      · have hstep : egcdLoop (fuel + 1) x y a b
            = egcdLoop fuel y (x % y) b (a - ((x / y : Nat) : Int) * b) := by
          simp only [egcdLoop]; rw [if_neg hy0]
        have hylt : x % y < y := Nat.mod_lt x (by omega)
        have hmd : ((x % y : Nat) : Int) + ((y : Nat) : Int) * ((x / y : Nat) : Int)
            = ((x : Nat) : Int) := by exact_mod_cast Nat.mod_add_div x y
        have hq : ((x % y : Nat) : Int)
            ≡ (a - ((x / y : Nat) : Int) * b) * (r : Int) [ZMOD (n : Int)] := by
          have hcast : ((x % y : Nat) : Int)
              = ((x : Nat) : Int) - ((x / y : Nat) : Int) * ((y : Nat) : Int) := by linarith
          rw [hcast]
          calc ((x : Nat) : Int) - ((x / y : Nat) : Int) * ((y : Nat) : Int)
              ≡ a * (r : Int) - ((x / y : Nat) : Int) * (b * (r : Int)) [ZMOD (n : Int)] :=
                Int.ModEq.sub hx (Int.ModEq.mul_left _ hy)
            _ = (a - ((x / y : Nat) : Int) * b) * (r : Int) := by ring
        obtain ⟨a', ha1, ha2⟩ :=
          ih (x % y) hylt fuel y b (a - ((x / y : Nat) : Int) * b) (by omega) hy hq
        rw [hstep, Nat.gcd_rec y x]
        exact ⟨a', ha1, ha2⟩

theorem reciprocal_mod_spec (n r : Nat) (h3 : 3 ≤ n) (hgcd : Nat.gcd n r = 1) :
    ∃ v : Nat, reciprocal_mod n r = some v ∧ v < n ∧ 1 ≤ v ∧ r * v % n = 1 := by
  have hnInt : (0 : Int) < (n : Int) := by exact_mod_cast (by omega : 0 < n)
  have hx0 : ((n : Nat) : Int) ≡ 0 * (r : Int) [ZMOD (n : Int)] := by
    rw [zero_mul]
    exact Int.modEq_zero_iff_dvd.mpr dvd_rfl
  have hy0 : ((r % n : Nat) : Int) ≡ 1 * (r : Int) [ZMOD (n : Int)] := by
    rw [one_mul, Int.natCast_mod]
    exact Int.emod_emod_of_dvd r dvd_rfl
  obtain ⟨a', ha1, ha2⟩ :=
    egcdLoop_gcd_bezout n r (r % n) (r % n + 1) n 0 1 (by omega) hx0 hy0
  have hg : Nat.gcd (r % n) n = 1 := by rw [← Nat.gcd_rec n r]; exact hgcd
  rw [hg] at ha1 ha2
  have h0 := (mod_nonneg_lt a' n hnInt).1
  have h1 := (mod_nonneg_lt a' n hnInt).2
  set v := (mod a' n).toNat with hv
  have hveq : (v : Int) = mod a' n := Int.toNat_of_nonneg h0
  have hvlt : v < n := by
    have : (v : Int) < (n : Int) := by rw [hveq]; exact h1
    exact_mod_cast this
  have hvmod : (v : Int) ≡ a' [ZMOD (n : Int)] := by
    rw [hveq]; exact mod_modEq a' n hnInt
  have hrv : ((r * v : Nat) : Int) ≡ ((1 : Nat) : Int) [ZMOD (n : Int)] := by
    push_cast
    calc (r : Int) * (v : Int) ≡ (r : Int) * a' [ZMOD (n : Int)] := Int.ModEq.mul_left _ hvmod
      _ = a' * (r : Int) := by ring
      _ ≡ 1 [ZMOD (n : Int)] := by
          have := ha2
          push_cast at this
          exact this.symm
  have hrvN : r * v % n = 1 % n := by
    have hcast : ((r * v % n : Nat) : Int) = ((1 % n : Nat) : Int) := by
      rw [Int.natCast_mod, Int.natCast_mod]
      exact hrv
    exact_mod_cast hcast
  rw [Nat.mod_eq_of_lt (by omega : 1 < n)] at hrvN
  have hvpos : 1 ≤ v := by
    rcases Nat.eq_zero_or_pos v with hz | hp
    · rw [hz, mul_zero, Nat.zero_mod] at hrvN; omega
    · exact hp
  refine ⟨v, ?_, hvlt, hvpos, hrvN⟩
  unfold reciprocal_mod
  rw [ha1]
  simp [hv]

theorem params_of_reciprocal (N : Nat) (h3 : 3 ≤ N) (hodd : N % 2 = 1) (hle : N ≤ 2 ^ 31 - 1) :
    ∃ v : Nat, reciprocal_mod N (2 ^ bit_length N) = some v ∧
      Params N (bit_length N) v ((2 ^ bit_length N * v + (2 ^ 64 - 1)) % 2 ^ 64 / N) := by
  obtain ⟨v, hsome, hvlt, hvpos, hrv⟩ :=
    reciprocal_mod_spec N (2 ^ bit_length N) h3 (coprime_two_pow N (bit_length N) hodd)
  set k := bit_length N with hk
  have hltR : N < 2 ^ k := lt_two_pow_bit_length N
  have hk31 : k ≤ 31 := bit_length_le_31 N (by omega) hle
  have hR31 : 2 ^ k ≤ 2 ^ 31 := Nat.pow_le_pow_right (by omega) hk31
  have hRv_pos : 1 ≤ 2 ^ k * v := Nat.mul_pos (pow_pos (by omega) k) (by omega)
  have hRv_lt : 2 ^ k * v < 2 ^ 62 := by
    calc 2 ^ k * v ≤ 2 ^ 31 * v := Nat.mul_le_mul_right v hR31
      _ < 2 ^ 31 * 2 ^ 31 := (Nat.mul_lt_mul_left (by norm_num)).mpr (by omega)
      _ ≤ 2 ^ 62 := by norm_num
  have hsimp : (2 ^ k * v + (2 ^ 64 - 1)) % 2 ^ 64 = 2 ^ k * v - 1 := by omega
  have hA : 2 ^ k * v = N * (2 ^ k * v / N) + 1 := by
    rw [← hrv]
    exact (Nat.div_add_mod _ _).symm
  have hsub : 2 ^ k * v - 1 = N * (2 ^ k * v / N) := Nat.sub_eq_of_eq_add hA
  set ninv := (2 ^ k * v + (2 ^ 64 - 1)) % 2 ^ 64 / N with hninv
  have hq : ninv = 2 ^ k * v / N := by
    rw [hninv, hsimp, hsub, Nat.mul_div_cancel_left _ (show 0 < N by omega)]
  have hkey : ninv * N + 1 = 2 ^ k * v := by
    rw [hq, mul_comm]
    exact hA.symm
  have hninv_lt : ninv < 2 ^ k := by
    have h0 : ninv * N < 2 ^ k * v := by rw [← hkey]; exact Nat.lt_succ_self _
    have h1 : 2 ^ k * v < 2 ^ k * N := (Nat.mul_lt_mul_left (pow_pos (by omega) k)).mpr hvlt
    exact Nat.lt_of_mul_lt_mul_right (lt_trans h0 h1)
  exact ⟨v, hsome, ⟨h3, hle, hltR, hk31, hvlt, hvpos, hkey, hninv_lt⟩⟩

theorem mkMontgomery_eq (N : Nat) (h3 : 3 ≤ N) (hodd : N % 2 = 1) (hle : N ≤ 2 ^ 31 - 1)
    (v : Nat) (hv : reciprocal_mod N (2 ^ bit_length N) = some v) :
    mkMontgomery N = .ok ⟨N, bit_length N, v, 2 ^ bit_length N - 1,
      (2 ^ bit_length N * v + (2 ^ 64 - 1)) % 2 ^ 64 / N,
      2 ^ bit_length N * 2 ^ bit_length N % N⟩ := by
  unfold mkMontgomery
  rw [if_neg (by omega), if_neg (by omega), if_neg (by omega)]
  simp only [Nat.one_shiftLeft, mod_mult_inv, hv]

theorem mkMontgomery2_eq (N : Nat) (h3 : 3 ≤ N) (hodd : N % 2 = 1) (hle : N ≤ 2 ^ 31 - 1)
    (v : Nat) (hv : reciprocal_mod N (2 ^ bit_length N) = some v) :
    mkMontgomery2 N = .ok ⟨N, bit_length N, v, 2 ^ bit_length N - 1,
      (2 ^ bit_length N * v + (2 ^ 64 - 1)) % 2 ^ 64 / N⟩ := by
  unfold mkMontgomery2
  rw [if_neg (by omega), if_neg (by omega), if_neg (by omega)]
  simp only [Nat.one_shiftLeft, hv]

theorem mkMontgomery_inv (N : Nat) (m : Montgomery) (h : mkMontgomery N = .ok m) :
    3 ≤ N ∧ N % 2 = 1 ∧ N ≤ 2 ^ 31 - 1 ∧ m.n = N ∧ m.r_bit_len = bit_length N ∧
    m.r_mask = 2 ^ bit_length N - 1 ∧
    m.r2_mod_n = 2 ^ bit_length N * 2 ^ bit_length N % N ∧
    reciprocal_mod N (2 ^ bit_length N) = some m.r_inv_mod ∧
    Params N (bit_length N) m.r_inv_mod m.n_inv_mod := by
  by_cases h1 : N < 3
  · unfold mkMontgomery at h; rw [if_pos h1] at h; exact Except.noConfusion h
  by_cases h2 : N % 2 = 0
  · unfold mkMontgomery at h; rw [if_neg h1, if_pos h2] at h; exact Except.noConfusion h
  by_cases h3 : N > 2 ^ 31 - 1
  · unfold mkMontgomery at h
    rw [if_neg h1, if_neg h2, if_pos h3] at h
    exact Except.noConfusion h
  obtain ⟨v, hsome, hparams⟩ := params_of_reciprocal N (by omega) (by omega) (by omega)
  have heq := mkMontgomery_eq N (by omega) (by omega) (by omega) v hsome
  rw [heq] at h
  have hm : m = ⟨N, bit_length N, v, 2 ^ bit_length N - 1,
      (2 ^ bit_length N * v + (2 ^ 64 - 1)) % 2 ^ 64 / N,
      2 ^ bit_length N * 2 ^ bit_length N % N⟩ := (Except.ok.inj h).symm
  subst hm
  exact ⟨by omega, by omega, by omega, rfl, rfl, rfl, rfl, hsome, hparams⟩

theorem mkMontgomery2_inv (N : Nat) (m : Montgomery2) (h : mkMontgomery2 N = .ok m) :
    3 ≤ N ∧ N % 2 = 1 ∧ N ≤ 2 ^ 31 - 1 ∧ m.n = N ∧ m.r_bit_len = bit_length N ∧
    m.r_mask = 2 ^ bit_length N - 1 ∧
    reciprocal_mod N (2 ^ bit_length N) = some m.r_reciprocal ∧
    Params N (bit_length N) m.r_reciprocal m.k := by
  by_cases h1 : N < 3
  · unfold mkMontgomery2 at h; rw [if_pos h1] at h; exact Except.noConfusion h
  by_cases h2 : N % 2 = 0
  · unfold mkMontgomery2 at h; rw [if_neg h1, if_pos h2] at h; exact Except.noConfusion h
  by_cases h3 : N > 2 ^ 31 - 1
  · unfold mkMontgomery2 at h
    rw [if_neg h1, if_neg h2, if_pos h3] at h
    exact Except.noConfusion h
  obtain ⟨v, hsome, hparams⟩ := params_of_reciprocal N (by omega) (by omega) (by omega)
  have heq := mkMontgomery2_eq N (by omega) (by omega) (by omega) v hsome
  rw [heq] at h
  have hm : m = ⟨N, bit_length N, v, 2 ^ bit_length N - 1,
      (2 ^ bit_length N * v + (2 ^ 64 - 1)) % 2 ^ 64 / N⟩ := (Except.ok.inj h).symm
  subst hm
  exact ⟨by omega, by omega, by omega, rfl, rfl, rfl, hsome, hparams⟩

theorem redcRaw_spec (N k v ninv : Nat) (h : Params N k v ninv) (x : Nat)
    (hx : x < 2 ^ k * N) :
    redcRaw N k (2 ^ k - 1) ninv x = x * v % N ∧ redcRaw N k (2 ^ k - 1) ninv x < N ∧
    x + ((x &&& (2 ^ k - 1)) * ninv &&& (2 ^ k - 1)) * N < 2 * (2 ^ k * N) ∧
    2 * (2 ^ k * N) ≤ 2 ^ 63 := by
  obtain ⟨h3, hle, hltR, hk31, hvlt, hvpos, hkey, hninvlt⟩ := h
  have hN0 : 0 < N := by omega
  have hR0 : 0 < 2 ^ k := pow_pos (by omega) k
  have hR31 : (2 : Nat) ^ k ≤ 2 ^ 31 := Nat.pow_le_pow_right (by omega) hk31
  have hmask1 : x &&& (2 ^ k - 1) = x % 2 ^ k := Nat.and_pow_two_sub_one_eq_mod x k
  set s := (x &&& (2 ^ k - 1)) * ninv &&& (2 ^ k - 1) with hs
  have hs_eq : s = x % 2 ^ k * ninv % 2 ^ k := by
    rw [hs, hmask1, Nat.and_pow_two_sub_one_eq_mod]
  have hs_lt : s < 2 ^ k := by rw [hs_eq]; exact Nat.mod_lt _ hR0
  have hsN : s * N < 2 ^ k * N := (Nat.mul_lt_mul_right hN0).mpr hs_lt
  have ht_lt : x + s * N < 2 * (2 ^ k * N) := by omega
  have hbound : 2 * (2 ^ k * N) ≤ 2 ^ 63 := by
    have : 2 ^ k * N ≤ 2 ^ 31 * (2 ^ 31 - 1) := Nat.mul_le_mul hR31 hle
    omega
  have ht64 : (x + s * N) % 2 ^ 64 = x + s * N := Nat.mod_eq_of_lt (by omega)
  have hs_cong : s ≡ x * ninv [MOD 2 ^ k] := by
    rw [hs_eq]
    calc x % 2 ^ k * ninv % 2 ^ k ≡ x % 2 ^ k * ninv [MOD 2 ^ k] := Nat.mod_modEq _ _
      _ ≡ x * ninv [MOD 2 ^ k] := Nat.ModEq.mul_right ninv (Nat.mod_modEq x _)
  have hdvd : 2 ^ k ∣ x + s * N := by
    have hc : x + s * N ≡ 0 [MOD 2 ^ k] := by
      calc x + s * N ≡ x + x * ninv * N [MOD 2 ^ k] :=
            Nat.ModEq.add_left x (Nat.ModEq.mul_right N hs_cong)
        _ = x * (ninv * N + 1) := by ring
        _ = 2 ^ k * (x * v) := by rw [hkey]; ring
        _ ≡ 0 [MOD 2 ^ k] := (Nat.modEq_zero_iff_dvd).mpr ⟨x * v, rfl⟩
    exact (Nat.modEq_zero_iff_dvd).mp hc
  have hshift : (x + s * N) >>> k = (x + s * N) / 2 ^ k := Nat.shiftRight_eq_div_pow _ k
  set u := (x + s * N) / 2 ^ k with hu
  have hu_lt : u < 2 * N := by
    rw [hu, Nat.div_lt_iff_lt_mul hR0]
    calc x + s * N < 2 * (2 ^ k * N) := ht_lt
      _ = 2 * N * 2 ^ k := by ring
  have hu32 : u % 2 ^ 32 = u := Nat.mod_eq_of_lt (by omega)
  have humul : u * 2 ^ k = x + s * N := by rw [hu]; exact Nat.div_mul_cancel hdvd
  have hucong : u * 2 ^ k ≡ x [MOD N] := by
    rw [humul]
    calc x + s * N ≡ x + 0 [MOD N] :=
          Nat.ModEq.add_left x ((Nat.modEq_zero_iff_dvd).mpr ⟨s, mul_comm s N⟩)
      _ = x := by ring
  have hred : redcRaw N k (2 ^ k - 1) ninv x = if N ≤ u then u - N else u := by
    simp only [redcRaw]
    rw [← hs, ht64, hshift, hu32]
  have hw_lt : (if N ≤ u then u - N else u) < N := by split <;> omega
  have hw_cong : (if N ≤ u then u - N else u) ≡ u [MOD N] := by
    split
    · show (u - N) % N = u % N
      conv_rhs => rw [show u = u - N + N by omega]
      rw [Nat.add_mod_right]
    · rfl
  have h1 : 2 ^ k * v ≡ 1 [MOD N] := by
    calc 2 ^ k * v = ninv * N + 1 := hkey.symm
      _ ≡ 0 + 1 [MOD N] := Nat.ModEq.add_right 1 ((Nat.modEq_zero_iff_dvd).mpr ⟨ninv, mul_comm ninv N⟩)
      _ = 1 := by ring
  have hfinal : (if N ≤ u then u - N else u) ≡ x * v [MOD N] := by
    calc (if N ≤ u then u - N else u) ≡ u [MOD N] := hw_cong
      _ = u * 1 := by ring
      _ ≡ u * (2 ^ k * v) [MOD N] := Nat.ModEq.mul_left u h1.symm
      _ = u * 2 ^ k * v := by ring
      _ ≡ x * v [MOD N] := Nat.ModEq.mul_right v hucong
  have heq : (if N ≤ u then u - N else u) = x * v % N := by
    have hh := hfinal
    rw [show (if N ≤ u then u - N else u) ≡ x * v [MOD N]
        ↔ (if N ≤ u then u - N else u) % N = x * v % N from Iff.rfl] at hh
    rw [Nat.mod_eq_of_lt hw_lt] at hh
    exact hh
  refine ⟨?_, ?_, ht_lt, hbound⟩
  · rw [hred, heq]
  · rw [hred]; exact hw_lt

theorem params_Rv_one (N k v ninv : Nat) (h : Params N k v ninv) : 2 ^ k * v ≡ 1 [MOD N] := by
  calc 2 ^ k * v = ninv * N + 1 := h.key.symm
    _ ≡ 0 + 1 [MOD N] := Nat.ModEq.add_right 1 ((Nat.modEq_zero_iff_dvd).mpr ⟨ninv, mul_comm ninv N⟩)
    _ = 1 := by ring

theorem REDC_spec (N : Nat) (m : Montgomery) (hm : mkMontgomery N = .ok m)
    (x : Nat) (hx : x < 2 ^ m.r_bit_len * N) :
    m.REDC x = x * m.r_inv_mod % N ∧ m.REDC x < N := by
  obtain ⟨h3, hodd, hle, hn, hbl, hmask, hr2, hrec, hparams⟩ := mkMontgomery_inv N m hm
  rw [hbl] at hx
  have hR : m.REDC x = redcRaw N (bit_length N) (2 ^ bit_length N - 1) m.n_inv_mod x := by
    unfold Montgomery.REDC
    rw [hn, hbl, hmask]
  obtain ⟨he, hlt, h5, h6⟩ :=
    redcRaw_spec N (bit_length N) m.r_inv_mod m.n_inv_mod hparams x hx
  rw [hR]
  exact ⟨he, he ▸ hlt⟩

theorem convert_out_spec (N : Nat) (m : Montgomery) (hm : mkMontgomery N = .ok m)
    (x : Nat) (hx : x < N) :
    m.convert_out x = x * m.r_inv_mod % N ∧ m.convert_out x < N := by
  have hxx : x < 2 ^ m.r_bit_len * N :=
    lt_of_lt_of_le hx (Nat.le_mul_of_pos_left N (pow_pos (by omega) _))
  exact REDC_spec N m hm x hxx

theorem multiply_spec (N : Nat) (m : Montgomery) (hm : mkMontgomery N = .ok m)
    (a b : Nat) (ha : a < N) (hb : b < N) :
    m.multiply a b = a * b * m.r_inv_mod % N ∧ m.multiply a b < N := by
  have hab : a * b < 2 ^ m.r_bit_len * N := by
    obtain ⟨h3, hodd, hle, hn, hbl, h5, h6, h7, hparams⟩ := mkMontgomery_inv N m hm
    have hNR : N < 2 ^ m.r_bit_len := by rw [hbl]; exact hparams.lt_R
    calc a * b < N * N := mul_lt_mul'' ha hb (Nat.zero_le a) (Nat.zero_le b)
      _ ≤ 2 ^ m.r_bit_len * N := Nat.mul_le_mul_right N (le_of_lt hNR)
  exact REDC_spec N m hm (a * b) hab

theorem convert_in_spec (N : Nat) (m : Montgomery) (hm : mkMontgomery N = .ok m) (x : Nat) :
    m.convert_in x = x * 2 ^ m.r_bit_len % N ∧ m.convert_in x < N := by
  obtain ⟨h3, hodd, hle, hn, hbl, hmask, hr2, hrec, hparams⟩ := mkMontgomery_inv N m hm
  have hN0 : 0 < N := by omega
  set x' := if m.n ≤ x then x % m.n else x with hxd
  have hci : m.convert_in x = m.REDC (x' * m.r2_mod_n) := by
    simp only [Montgomery.convert_in]
  have hx'c : x' % N = x % N := by
    rw [hxd, hn]
    split
    · exact Nat.mod_mod_of_dvd x dvd_rfl
    · rfl
  have hx'lt : x' < N := by
    rw [hxd, hn]
    split
    · exact Nat.mod_lt x hN0
    · omega
  have hr2lt : m.r2_mod_n < N := by rw [hr2]; exact Nat.mod_lt _ hN0
  have harg : x' * m.r2_mod_n < 2 ^ m.r_bit_len * N := by
    have hNR : N < 2 ^ m.r_bit_len := by rw [hbl]; exact hparams.lt_R
    calc x' * m.r2_mod_n < N * N :=
          mul_lt_mul'' hx'lt hr2lt (Nat.zero_le _) (Nat.zero_le _)
      _ ≤ 2 ^ m.r_bit_len * N := Nat.mul_le_mul_right N (le_of_lt hNR)
  obtain ⟨he, hlt⟩ := REDC_spec N m hm (x' * m.r2_mod_n) harg
  have hr2c : m.r2_mod_n ≡ 2 ^ bit_length N * 2 ^ bit_length N [MOD N] := by
    rw [hr2]; exact Nat.mod_modEq _ _
  have h1 : 2 ^ bit_length N * m.r_inv_mod ≡ 1 [MOD N] :=
    params_Rv_one N (bit_length N) m.r_inv_mod m.n_inv_mod hparams
  have hchain : x' * m.r2_mod_n * m.r_inv_mod ≡ x * 2 ^ bit_length N [MOD N] := by
    calc x' * m.r2_mod_n * m.r_inv_mod
        ≡ x' * (2 ^ bit_length N * 2 ^ bit_length N) * m.r_inv_mod [MOD N] :=
          Nat.ModEq.mul_right _ (Nat.ModEq.mul_left x' hr2c)
      _ = x' * 2 ^ bit_length N * (2 ^ bit_length N * m.r_inv_mod) := by ring
      _ ≡ x' * 2 ^ bit_length N * 1 [MOD N] := Nat.ModEq.mul_left _ h1
      _ = 2 ^ bit_length N * x' := by ring
      _ ≡ 2 ^ bit_length N * x [MOD N] := Nat.ModEq.mul_left _ hx'c
      _ = x * 2 ^ bit_length N := by ring
  constructor
  · rw [hci, he, hbl]
    exact hchain
  · rw [hci]
    exact hlt

theorem convert_in2_spec (N : Nat) (m2 : Montgomery2) (hm2 : mkMontgomery2 N = .ok m2)
    (x : Nat) (hx : x < 2 ^ 32) :
    m2.convert_in x = x * 2 ^ m2.r_bit_len % N ∧ m2.convert_in x < N := by
  obtain ⟨h3, hodd, hle, hn, hbl, hmask, hrec, hparams⟩ := mkMontgomery2_inv N m2 hm2
  have hk31 : m2.r_bit_len ≤ 31 := by rw [hbl]; exact hparams.k_le
  have hshift : x <<< m2.r_bit_len = x * 2 ^ m2.r_bit_len := Nat.shiftLeft_eq x _
  have hlt64 : x * 2 ^ m2.r_bit_len < 2 ^ 64 := by
    have h1 : (2 : Nat) ^ m2.r_bit_len ≤ 2 ^ 31 := Nat.pow_le_pow_right (by omega) hk31
    calc x * 2 ^ m2.r_bit_len ≤ x * 2 ^ 31 := Nat.mul_le_mul_left x h1
      _ < 2 ^ 32 * 2 ^ 31 := (Nat.mul_lt_mul_right (by norm_num)).mpr hx
      _ ≤ 2 ^ 64 := by norm_num
  unfold Montgomery2.convert_in
  rw [hshift, Nat.mod_eq_of_lt hlt64, hn]
  exact ⟨rfl, Nat.mod_lt _ (by omega)⟩

theorem convert_out2_spec (N : Nat) (m2 : Montgomery2) (hm2 : mkMontgomery2 N = .ok m2)
    (x : Nat) :
    m2.convert_out x = x * m2.r_reciprocal % N ∧ m2.convert_out x < N := by
  obtain ⟨h3, hodd, hle, hn, hbl, hmask, hrec, hparams⟩ := mkMontgomery2_inv N m2 hm2
  unfold Montgomery2.convert_out
  rw [hn]
  exact ⟨rfl, Nat.mod_lt _ (by omega)⟩

theorem multiply2_spec (N : Nat) (m2 : Montgomery2) (hm2 : mkMontgomery2 N = .ok m2)
    (a b : Nat) (ha : a < N) (hb : b < N) :
    m2.multiply a b = a * b * m2.r_reciprocal % N ∧ m2.multiply a b < N := by
  obtain ⟨h3, hodd, hle, hn, hbl, hmask, hrec, hparams⟩ := mkMontgomery2_inv N m2 hm2
  have hab : a * b < 2 ^ bit_length N * N := by
    calc a * b < N * N := mul_lt_mul'' ha hb (Nat.zero_le a) (Nat.zero_le b)
      _ ≤ 2 ^ bit_length N * N := Nat.mul_le_mul_right N (le_of_lt hparams.lt_R)
  have hM : m2.multiply a b = redcRaw N (bit_length N) (2 ^ bit_length N - 1) m2.k (a * b) := by
    unfold Montgomery2.multiply
    rw [hn, hbl, hmask]
  obtain ⟨he, hlt, h5, h6⟩ := redcRaw_spec N (bit_length N) m2.r_reciprocal m2.k hparams (a * b) hab
  rw [hM]
  exact ⟨he, he ▸ hlt⟩

theorem natAbs_sub_nonpos_mul (a c : Int) (h : 0 ≤ a ∧ c ≤ 0 ∨ a ≤ 0 ∧ 0 ≤ c) :
    (a - c).natAbs = a.natAbs + c.natAbs := by omega

theorem egcdLoopChecked_spec (N : Nat) (hle : N ≤ 2 ^ 31 - 1) :
    ∀ y fuel x : Nat, ∀ a b : Int, y < fuel → 1 ≤ x → x ≤ N → y < x →
      a * b ≤ 0 → a.natAbs ≤ N → b.natAbs * x + a.natAbs * y = N →
      egcdLoopChecked fuel x y a b = egcdLoop fuel x y a b ∧
      ∃ g : Nat, ∃ a' : Int, egcdLoop fuel x y a b = some (g, a') ∧ a'.natAbs ≤ N := by
  intro y
  induction y using Nat.strong_induction_on with
  | _ y ih =>
    intro fuel x a b hfuel hx1 hxN hyx hab haN hinv
    obtain ⟨fuel, rfl⟩ : ∃ f, fuel = f + 1 := ⟨fuel - 1, by omega⟩
    by_cases hy0 : y = 0
    · subst hy0
      refine ⟨by simp [egcdLoopChecked, egcdLoop], x, a, by simp [egcdLoop], haN⟩
    · have hy1 : 1 ≤ y := by omega
      have hsplit : 0 ≤ a ∧ ((x / y : Nat) : Int) * b ≤ 0 ∨
          a ≤ 0 ∧ 0 ≤ ((x / y : Nat) : Int) * b := by
        rcases mul_nonpos_iff.mp hab with ⟨ha, hb⟩ | ⟨ha, hb⟩
        · exact Or.inl ⟨ha, mul_nonpos_of_nonneg_of_nonpos (by positivity) hb⟩
        · exact Or.inr ⟨ha, mul_nonneg (by positivity) hb⟩
      have habs : (a - ((x / y : Nat) : Int) * b).natAbs
          = a.natAbs + (((x / y : Nat) : Int) * b).natAbs :=
        natAbs_sub_nonpos_mul a _ hsplit
      have hqb_abs : (((x / y : Nat) : Int) * b).natAbs = x / y * b.natAbs := by
        rw [Int.natAbs_mul, Int.natAbs_ofNat]
      have hmd : x % y + x / y * y = x := Nat.mod_add_div' x y
      have hinv' : (a - ((x / y : Nat) : Int) * b).natAbs * y + b.natAbs * (x % y) = N := by
        rw [habs, hqb_abs, ← hinv]
        conv_rhs => rw [← hmd]
        ring
      have hb'N : (a - ((x / y : Nat) : Int) * b).natAbs ≤ N := by
        have h0 : (a - ((x / y : Nat) : Int) * b).natAbs * y ≤ N := by omega
        calc (a - ((x / y : Nat) : Int) * b).natAbs
            ≤ (a - ((x / y : Nat) : Int) * b).natAbs * y := Nat.le_mul_of_pos_right _ hy1
          _ ≤ N := h0
      have hbN : b.natAbs ≤ N := by
        have h0 : b.natAbs * x ≤ N := by omega
        calc b.natAbs ≤ b.natAbs * x := Nat.le_mul_of_pos_right _ (by omega)
          _ ≤ N := h0
      have hqN : x / y ≤ N := le_trans (Nat.div_le_self x y) hxN
      have hqbN : (((x / y : Nat) : Int) * b).natAbs ≤ N := by
        calc (((x / y : Nat) : Int) * b).natAbs
            ≤ a.natAbs + (((x / y : Nat) : Int) * b).natAbs := by omega
          _ = (a - ((x / y : Nat) : Int) * b).natAbs := habs.symm
          _ ≤ N := hb'N
      have hcond : ((x / y : Nat) : Int) < 2 ^ 31 ∧
          -2 ^ 31 ≤ ((x / y : Nat) : Int) * b ∧ ((x / y : Nat) : Int) * b < 2 ^ 31 ∧
          -2 ^ 31 ≤ a - ((x / y : Nat) : Int) * b ∧
          a - ((x / y : Nat) : Int) * b < 2 ^ 31 := by
        have h1 := hqbN
        have h2 := hb'N
        generalize hz : ((x / y : Nat) : Int) * b = z at h1 h2 ⊢
        omega
      have hstepC : egcdLoopChecked (fuel + 1) x y a b
          = egcdLoopChecked fuel y (x % y) b (a - ((x / y : Nat) : Int) * b) := by
        simp only [egcdLoopChecked]
        rw [if_neg hy0, if_pos hcond]
      have hstepE : egcdLoop (fuel + 1) x y a b
          = egcdLoop fuel y (x % y) b (a - ((x / y : Nat) : Int) * b) := by
        simp only [egcdLoop]
        rw [if_neg hy0]
      have hsign' : b * (a - ((x / y : Nat) : Int) * b) ≤ 0 := by
        have hexp : b * (a - ((x / y : Nat) : Int) * b)
            = a * b - ((x / y : Nat) : Int) * (b * b) := by ring
        rw [hexp]
        have h1 : 0 ≤ ((x / y : Nat) : Int) * (b * b) :=
          mul_nonneg (by positivity) (mul_self_nonneg b)
        linarith
      have hylt : x % y < y := Nat.mod_lt x (by omega)
      obtain ⟨hCE, g, a', hE, ha'⟩ :=
        ih (x % y) hylt fuel y b
          (a - ((x / y : Nat) : Int) * b) (by omega) hy1
          (le_trans (le_of_lt hyx) hxN) hylt hsign' hbN hinv'
      refine ⟨by rw [hstepC, hstepE, hCE], g, a', by rw [hstepE]; exact hE, ha'⟩

theorem henselInner_succ (fuel a_prev c mask q t : Nat) :
    henselInner (fuel + 1) a_prev c mask q t
      = if (q * ((a_prev + c * t) % 2 ^ 64) + 1) % 2 ^ 64 &&& mask = 0
        then some ((a_prev + c * t) % 2 ^ 64)
        else henselInner fuel a_prev c mask q (t + 1) := rfl

theorem henselInner_spec (q a_prev k : Nat) (hq : q % 2 = 1) (hk : k + 1 ≤ 63)
    (ha : a_prev < 2 ^ k) (hsol : (q * a_prev + 1) % 2 ^ k = 0) :
    ∃ a, henselInner (2 ^ 64) a_prev (2 ^ k) (2 ^ (k + 1) - 1) q 0 = some a ∧
      a < 2 ^ (k + 1) ∧ (q * a + 1) % 2 ^ (k + 1) = 0 := by
  have hk2 : (2 : Nat) ^ k ≤ 2 ^ 63 := Nat.pow_le_pow_right (by omega) (by omega)
  have hk2' : (2 : Nat) ^ (k + 1) ≤ 2 ^ 63 := Nat.pow_le_pow_right (by omega) hk
  have hpow : (2 : Nat) ^ (k + 1) = 2 ^ k * 2 := pow_succ 2 k
  have ha64 : a_prev < 2 ^ 64 := by omega
  have hdvd64 : (2 : Nat) ^ (k + 1) ∣ 2 ^ 64 := pow_dvd_pow 2 (by omega)
  rw [show (2 : Nat) ^ 64 = (2 ^ 64 - 1) + 1 by norm_num, henselInner_succ]
  simp only [Nat.mul_zero, Nat.add_zero]
  rw [Nat.mod_eq_of_lt ha64, Nat.and_pow_two_sub_one_eq_mod, Nat.mod_mod_of_dvd _ hdvd64]
  by_cases h0 : (q * a_prev + 1) % 2 ^ (k + 1) = 0
  · rw [if_pos h0]
    exact ⟨a_prev, rfl, by omega, h0⟩
  · rw [if_neg h0]
    rw [show (2 : Nat) ^ 64 - 1 = (2 ^ 64 - 2) + 1 by norm_num, henselInner_succ]
    simp only [Nat.zero_add, Nat.mul_one]
    have ha2 : a_prev + 2 ^ k < 2 ^ (k + 1) := by omega
    have ha2' : a_prev + 2 ^ k < 2 ^ 64 := by omega
    rw [Nat.mod_eq_of_lt ha2', Nat.and_pow_two_sub_one_eq_mod, Nat.mod_mod_of_dvd _ hdvd64]
    have hv2 : (q * a_prev + 1) % 2 ^ (k + 1) = 2 ^ k := by
      have hd : 2 ^ k ∣ (q * a_prev + 1) % 2 ^ (k + 1) := by
        apply Nat.dvd_of_mod_eq_zero
        rw [Nat.mod_mod_of_dvd _ (pow_dvd_pow 2 (Nat.le_succ k))]
        exact hsol
      obtain ⟨j, hj⟩ := hd
      have hlt : (q * a_prev + 1) % 2 ^ (k + 1) < 2 ^ (k + 1) :=
        Nat.mod_lt _ (pow_pos (by omega) _)
      have hj2 : j < 2 := by
        rw [hj] at hlt
        rw [hpow] at hlt
        exact Nat.lt_of_mul_lt_mul_left hlt
      rcases (by omega : j = 0 ∨ j = 1) with hj0 | hj1
      · rw [hj0, Nat.mul_zero] at hj
        exact absurd hj h0
      · rw [hj1, Nat.mul_one] at hj
        exact hj
    obtain ⟨j', hj'⟩ : ∃ j', q = 2 * j' + 1 := ⟨q / 2, by omega⟩
    have hA : q * a_prev + 1
        = 2 ^ (k + 1) * ((q * a_prev + 1) / 2 ^ (k + 1)) + 2 ^ k := by
      conv_lhs => rw [← Nat.div_add_mod (q * a_prev + 1) (2 ^ (k + 1))]
      rw [hv2]
    set A := (q * a_prev + 1) / 2 ^ (k + 1) with hAdef
    have hexp : q * (a_prev + 2 ^ k) + 1 = 2 ^ (k + 1) * (A + j' + 1) := by
      calc q * (a_prev + 2 ^ k) + 1 = q * a_prev + 1 + q * 2 ^ k := by ring
        _ = 2 ^ (k + 1) * A + 2 ^ k + (2 * j' + 1) * 2 ^ k := by rw [← hA, ← hj']
        _ = 2 ^ (k + 1) * (A + j' + 1) := by simp only [pow_succ]; ring
    have hnew : (q * (a_prev + 2 ^ k) + 1) % 2 ^ (k + 1) = 0 := by
      rw [hexp]
      exact Nat.mul_mod_right _ _
    rw [if_pos hnew]
    exact ⟨a_prev + 2 ^ k, rfl, ha2, hnew⟩

theorem henselOuter_spec (q : Nat) (hq : q % 2 = 1) :
    ∀ s k a_prev : Nat, 1 ≤ k → k + s ≤ 63 → a_prev < 2 ^ k →
      (q * a_prev + 1) % 2 ^ k = 0 →
      ∃ x, henselOuter s a_prev (2 ^ k) (2 ^ (k + 1) - 1) q = some x ∧
        x < 2 ^ (k + s) ∧ (q * x + 1) % 2 ^ (k + s) = 0 := by
  intro s
  induction s with
  | zero =>
    intro k a_prev hk1 hks ha hsol
    exact ⟨a_prev, rfl, by simpa using ha, by simpa using hsol⟩
  | succ s ih =>
    intro k a_prev hk1 hks ha hsol
    obtain ⟨a, hsome, halt, hasol⟩ := henselInner_spec q a_prev k hq (by omega) ha hsol
    have hstep : henselOuter (s + 1) a_prev (2 ^ k) (2 ^ (k + 1) - 1) q
        = henselOuter s a (2 ^ k * 2 % 2 ^ 64) (((2 ^ (k + 1) - 1) * 2 + 1) % 2 ^ 64) q := by
      simp only [henselOuter, hsome]
    have hc : 2 ^ k * 2 % 2 ^ 64 = 2 ^ (k + 1) := by
      rw [← pow_succ]
      exact Nat.mod_eq_of_lt ((Nat.pow_lt_pow_iff_right (by omega)).mpr (by omega))
    have hm : ((2 ^ (k + 1) - 1) * 2 + 1) % 2 ^ 64 = 2 ^ (k + 1 + 1) - 1 := by
      have h1 : (1 : Nat) ≤ 2 ^ (k + 1) := Nat.one_le_two_pow
      have h2 : (2 : Nat) ^ (k + 1 + 1) = 2 ^ (k + 1) * 2 := pow_succ 2 (k + 1)
      have h3 : (2 : Nat) ^ (k + 1 + 1) ≤ 2 ^ 64 := Nat.pow_le_pow_right (by omega) (by omega)
      omega
    rw [hstep, hc, hm]
    obtain ⟨x, hx1, hx2, hx3⟩ := ih (k + 1) a (by omega) (by omega) halt hasol
    have hkk : k + 1 + s = k + (s + 1) := by omega
    rw [hkk] at hx2 hx3
    exact ⟨x, hx1, hx2, hx3⟩

theorem mk_Rv_one (N : Nat) (m : Montgomery) (hm : mkMontgomery N = .ok m) :
    2 ^ m.r_bit_len * m.r_inv_mod ≡ 1 [MOD N] := by
  obtain ⟨h1, h2, h3, h4, hbl, h5, h6, h7, hparams⟩ := mkMontgomery_inv N m hm
  rw [hbl]
  exact params_Rv_one N (bit_length N) m.r_inv_mod m.n_inv_mod hparams

theorem mk2_Rv_one (N : Nat) (m2 : Montgomery2) (hm2 : mkMontgomery2 N = .ok m2) :
    2 ^ m2.r_bit_len * m2.r_reciprocal ≡ 1 [MOD N] := by
  obtain ⟨h1, h2, h3, h4, hbl, h5, h6, hparams⟩ := mkMontgomery2_inv N m2 hm2
  rw [hbl]
  exact params_Rv_one N (bit_length N) m2.r_reciprocal m2.k hparams

theorem homomorphism_chain (N R v a b iA iB mulv : Nat)
    (hRv : R * v ≡ 1 [MOD N])
    (hiA : iA = a * R % N) (hiB : iB = b * R % N)
    (hmul : mulv = iA * iB * v % N) :
    mulv * v % N = a * b % N := by
  calc mulv * v ≡ iA * iB * v * v [MOD N] :=
        Nat.ModEq.mul_right v (by rw [hmul]; exact Nat.mod_modEq _ _)
    _ ≡ a * R * (b * R) * v * v [MOD N] := by
        apply Nat.ModEq.mul_right
        apply Nat.ModEq.mul_right
        exact Nat.ModEq.mul (by rw [hiA]; exact Nat.mod_modEq _ _)
          (by rw [hiB]; exact Nat.mod_modEq _ _)
    _ = a * b * (R * v * (R * v)) := by ring
    _ ≡ a * b * (1 * 1) [MOD N] := Nat.ModEq.mul_left _ (Nat.ModEq.mul hRv hRv)
    _ = a * b := by ring

theorem roundtrip_chain (N R v w x : Nat) (hRv : R * v ≡ 1 [MOD N]) (hw : w = x * R % N)
    (hx : x < N) : w * v % N = x := by
  have h1 : w * v ≡ x [MOD N] := by
    calc w * v ≡ x * R * v [MOD N] :=
          Nat.ModEq.mul_right v (by rw [hw]; exact Nat.mod_modEq _ _)
      _ = x * (R * v) := by ring
      _ ≡ x * 1 [MOD N] := Nat.ModEq.mul_left x hRv
      _ = x := by ring
  calc w * v % N = x % N := h1
    _ = x := Nat.mod_eq_of_lt hx

/-- C1: for every context built from an odd modulus `n` with
`3 ≤ n ≤ 2^31 − 1` and all `a, b` in `[0, n)`,
`convert_out (multiply (convert_in a) (convert_in b)) = a·b mod n`, in
both program variants (main2.cpp and part_000). -/
theorem claim_homomorphism (N : Nat) (m : Montgomery) (m2 : Montgomery2)
    (hm : mkMontgomery N = .ok m) (hm2 : mkMontgomery2 N = .ok m2)
    (a b : Nat) (ha : a < N) (hb : b < N) :
    m.convert_out (m.multiply (m.convert_in a) (m.convert_in b)) = a * b % N ∧
    m2.convert_out (m2.multiply (m2.convert_in a) (m2.convert_in b)) = a * b % N := by
  constructor
  · obtain ⟨hA, hA'⟩ := convert_in_spec N m hm a
    obtain ⟨hB, hB'⟩ := convert_in_spec N m hm b
    obtain ⟨hM, hM'⟩ := multiply_spec N m hm _ _ hA' hB'
    obtain ⟨hO, hO2⟩ := convert_out_spec N m hm _ hM'
    rw [hO]
    exact homomorphism_chain N (2 ^ m.r_bit_len) m.r_inv_mod a b _ _ _
      (mk_Rv_one N m hm) hA hB hM
  · have h32 : N < 2 ^ 32 := by
      obtain ⟨h1, h2, h3, h4⟩ := mkMontgomery2_inv N m2 hm2
      omega
    obtain ⟨hA, hA'⟩ := convert_in2_spec N m2 hm2 a (by omega)
    obtain ⟨hB, hB'⟩ := convert_in2_spec N m2 hm2 b (by omega)
    obtain ⟨hM, hM'⟩ := multiply2_spec N m2 hm2 _ _ hA' hB'
    obtain ⟨hO, hO2⟩ := convert_out2_spec N m2 hm2 (m2.multiply (m2.convert_in a) (m2.convert_in b))
    rw [hO]
    exact homomorphism_chain N (2 ^ m2.r_bit_len) m2.r_reciprocal a b _ _ _
      (mk2_Rv_one N m2 hm2) hA hB hM

/-- Witness for C1 at `n = 5`, `a = 2`, `b = 3` (context fields computed
by the constructor itself). -/
theorem claim_homomorphism_witness :
    Montgomery.convert_out ⟨5, 3, 2, 7, 3, 4⟩
        (Montgomery.multiply ⟨5, 3, 2, 7, 3, 4⟩
          (Montgomery.convert_in ⟨5, 3, 2, 7, 3, 4⟩ 2)
          (Montgomery.convert_in ⟨5, 3, 2, 7, 3, 4⟩ 3)) = 2 * 3 % 5 ∧
    Montgomery2.convert_out ⟨5, 3, 2, 7, 3⟩
        (Montgomery2.multiply ⟨5, 3, 2, 7, 3⟩
          (Montgomery2.convert_in ⟨5, 3, 2, 7, 3⟩ 2)
          (Montgomery2.convert_in ⟨5, 3, 2, 7, 3⟩ 3)) = 2 * 3 % 5 :=
  claim_homomorphism 5 ⟨5, 3, 2, 7, 3, 4⟩ ⟨5, 3, 2, 7, 3⟩ rfl rfl 2 3 (by decide) (by decide)

/-- C2: for every valid context and every 64-bit `x < R·n`, `REDC x`
equals `x·R⁻¹ mod n` and lies in `[0, n)`; the intermediate
`t = x + s·n` is below `2·R·n`, and `2·R·n ≤ 2^63`, so no 64-bit
intermediate overflows and one conditional subtraction suffices. -/
theorem claim_redc (N : Nat) (m : Montgomery) (hm : mkMontgomery N = .ok m)
    (x : Nat) (hx : x < 2 ^ m.r_bit_len * N) :
    m.REDC x = x * m.r_inv_mod % N ∧ m.REDC x < N ∧
    x + ((x &&& m.r_mask) * m.n_inv_mod &&& m.r_mask) * N < 2 * (2 ^ m.r_bit_len * N) ∧
    2 * (2 ^ m.r_bit_len * N) ≤ 2 ^ 63 := by
  obtain ⟨h3, hodd, hle, hn, hbl, hmask, hr2, hrec, hparams⟩ := mkMontgomery_inv N m hm
  have hR : m.REDC x = redcRaw N (bit_length N) (2 ^ bit_length N - 1) m.n_inv_mod x := by
    unfold Montgomery.REDC
    rw [hn, hbl, hmask]
  obtain ⟨e1, e2, e3, e4⟩ :=
    redcRaw_spec N (bit_length N) m.r_inv_mod m.n_inv_mod hparams x (by rw [hbl] at hx; exact hx)
  rw [hR, hbl, hmask]
  exact ⟨e1, e2, e3, e4⟩

/-- Witness for C2 at `n = 5`, `x = 7 < R·n = 40`:
`REDC 7 = 7 · 2 mod 5 = 4`. -/
theorem claim_redc_witness :
    Montgomery.REDC ⟨5, 3, 2, 7, 3, 4⟩ 7 = 7 * 2 % 5 :=
  (claim_redc 5 ⟨5, 3, 2, 7, 3, 4⟩ rfl 7 (by decide)).1

/-- C3: for every valid context and every `x` in `[0, n)`,
`convert_out (convert_in x) = x`, in both program variants. -/
theorem claim_round_trip (N : Nat) (m : Montgomery) (m2 : Montgomery2)
    (hm : mkMontgomery N = .ok m) (hm2 : mkMontgomery2 N = .ok m2)
    (x : Nat) (hx : x < N) :
    m.convert_out (m.convert_in x) = x ∧ m2.convert_out (m2.convert_in x) = x := by
  constructor
  · obtain ⟨hI, hI'⟩ := convert_in_spec N m hm x
    obtain ⟨hO, hO2⟩ := convert_out_spec N m hm _ hI'
    rw [hO]
    exact roundtrip_chain N (2 ^ m.r_bit_len) m.r_inv_mod _ x (mk_Rv_one N m hm) hI hx
  · have h32 : N < 2 ^ 32 := by
      obtain ⟨h1, h2, h3, h4⟩ := mkMontgomery2_inv N m2 hm2
      omega
    obtain ⟨hI, hI'⟩ := convert_in2_spec N m2 hm2 x (by omega)
    obtain ⟨hO, hO2⟩ := convert_out2_spec N m2 hm2 (m2.convert_in x)
    rw [hO]
    exact roundtrip_chain N (2 ^ m2.r_bit_len) m2.r_reciprocal _ x (mk2_Rv_one N m2 hm2) hI hx

/-- Witness for C3 at `n = 5`, `x = 4`. -/
theorem claim_round_trip_witness :
    Montgomery.convert_out ⟨5, 3, 2, 7, 3, 4⟩
        (Montgomery.convert_in ⟨5, 3, 2, 7, 3, 4⟩ 4) = 4 ∧
    Montgomery2.convert_out ⟨5, 3, 2, 7, 3⟩
        (Montgomery2.convert_in ⟨5, 3, 2, 7, 3⟩ 4) = 4 :=
  claim_round_trip 5 ⟨5, 3, 2, 7, 3, 4⟩ ⟨5, 3, 2, 7, 3⟩ rfl rfl 4 (by decide)

/-- C4: for every odd `n` in `[3, 2^31 − 1]` construction succeeds in both
variants and the computed parameters satisfy `0 < r_inv_mod < n`,
`R·r_inv_mod ≡ 1 (mod n)`, `n_inv_mod ≤ r_mask`, and the exact integer
identity `R·r_inv_mod = n_inv_mod·n + 1`; part_000 computes the same
`r_reciprocal`/`k` values. -/
theorem claim_construction (N : Nat) (h3 : 3 ≤ N) (hodd : N % 2 = 1) (hle : N ≤ 2 ^ 31 - 1) :
    ∃ m : Montgomery, ∃ m2 : Montgomery2,
      mkMontgomery N = .ok m ∧ mkMontgomery2 N = .ok m2 ∧
      0 < m.r_inv_mod ∧ m.r_inv_mod < N ∧
      2 ^ m.r_bit_len * m.r_inv_mod % N = 1 ∧
      m.n_inv_mod ≤ m.r_mask ∧
      2 ^ m.r_bit_len * m.r_inv_mod = m.n_inv_mod * N + 1 ∧
      m2.r_reciprocal = m.r_inv_mod ∧ m2.k = m.n_inv_mod ∧ m2.r_bit_len = m.r_bit_len := by
  obtain ⟨v, hsome, hparams⟩ := params_of_reciprocal N h3 hodd hle
  refine ⟨_, _, mkMontgomery_eq N h3 hodd hle v hsome, mkMontgomery2_eq N h3 hodd hle v hsome,
    hparams.v_pos, hparams.v_lt, ?_, ?_, hparams.key.symm, rfl, rfl, rfl⟩
  · calc 2 ^ bit_length N * v % N = 1 % N :=
        params_Rv_one N (bit_length N) v _ hparams
      _ = 1 := Nat.mod_eq_of_lt (by omega)
  · have := hparams.ninv_lt
    show (2 ^ bit_length N * v + (2 ^ 64 - 1)) % 2 ^ 64 / N ≤ 2 ^ bit_length N - 1
    omega

/-- Witness for C4 at `n = 5`. -/
theorem claim_construction_witness :
    ∃ m : Montgomery, ∃ m2 : Montgomery2,
      mkMontgomery 5 = .ok m ∧ mkMontgomery2 5 = .ok m2 ∧
      0 < m.r_inv_mod ∧ m.r_inv_mod < 5 ∧
      2 ^ m.r_bit_len * m.r_inv_mod % 5 = 1 ∧
      m.n_inv_mod ≤ m.r_mask ∧
      2 ^ m.r_bit_len * m.r_inv_mod = m.n_inv_mod * 5 + 1 ∧
      m2.r_reciprocal = m.r_inv_mod ∧ m2.k = m.n_inv_mod ∧ m2.r_bit_len = m.r_bit_len :=
  claim_construction 5 (by decide) (by decide) (by norm_num)

/-- Counterexample for C5: the constructor checks `n % 2 == 0` before
`n > INT32_MAX`, and `2^31` is even, so `Construct(2^31)` raises the
even-modulus error — not the too-large error the claim asserts — in both
variants. -/
theorem claim_rejection_counterexample :
    mkMontgomery (2 ^ 31) = .error .mustBeOdd ∧
    mkMontgomery (2 ^ 31) ≠ .error .tooLarge ∧
    mkMontgomery2 (2 ^ 31) = .error .mustBeOdd ∧
    mkMontgomery2 (2 ^ 31) ≠ .error .tooLarge := by
  refine ⟨rfl, ?_, rfl, ?_⟩
  · intro h
    rw [show mkMontgomery (2 ^ 31) = .error .mustBeOdd from rfl] at h
    exact absurd (Except.error.inj h) (by decide)
  · intro h
    rw [show mkMontgomery2 (2 ^ 31) = .error .mustBeOdd from rfl] at h
    exact absurd (Except.error.inj h) (by decide)

/-- C5 amended: validation order is too-small, then even, then too-large;
`Construct(1)` and `Construct(2)` fail with the too-small error,
`Construct(4)` with the even-modulus error, `Construct(2^31)` with the
even-modulus error (the even check precedes the size check, and `2^31`
is even), and `Construct(2^31 + 1)` with the too-large error — in both
variants. -/
theorem claim_rejection_order :
    mkMontgomery 1 = .error .tooSmall ∧ mkMontgomery 2 = .error .tooSmall ∧
    mkMontgomery 4 = .error .mustBeOdd ∧ mkMontgomery (2 ^ 31) = .error .mustBeOdd ∧
    mkMontgomery (2 ^ 31 + 1) = .error .tooLarge ∧
    mkMontgomery2 1 = .error .tooSmall ∧ mkMontgomery2 2 = .error .tooSmall ∧
    mkMontgomery2 4 = .error .mustBeOdd ∧ mkMontgomery2 (2 ^ 31) = .error .mustBeOdd ∧
    mkMontgomery2 (2 ^ 31 + 1) = .error .tooLarge :=
  ⟨rfl, rfl, rfl, rfl, rfl, rfl, rfl, rfl, rfl, rfl⟩

/-- C6: for every odd `n ≥ 3` and `r = 2^bit_length(n)`, the inverse
computation terminates without the inverse-does-not-exist error and
returns `v ∈ [0, n)` with `r·v ≡ 1 (mod n)`; the final Bezout
coefficient is normalized into `[0, n)` by true modulo (`mod` agrees
with the Euclidean `%` on `ℤ`). -/
theorem claim_reciprocal (n : Nat) (h3 : 3 ≤ n) (hodd : n % 2 = 1) :
    ∃ v : Nat, reciprocal_mod n (2 ^ bit_length n) = some v ∧
      mod_mult_inv n (2 ^ bit_length n) = some v ∧ v < n ∧
      2 ^ bit_length n * v % n = 1 ∧
      ∃ a' : Int,
        egcdLoop (2 ^ bit_length n % n + 1) n (2 ^ bit_length n % n) 0 1 = some (1, a') ∧
        v = (mod a' (n : Int)).toNat ∧ mod a' (n : Int) = a' % (n : Int) := by
  have hgcd : Nat.gcd n (2 ^ bit_length n) = 1 := coprime_two_pow n _ hodd
  obtain ⟨v, hsome, hvlt, hvpos, hrv⟩ := reciprocal_mod_spec n _ h3 hgcd
  have hx0 : ((n : Nat) : Int) ≡ 0 * ((2 ^ bit_length n : Nat) : Int) [ZMOD (n : Int)] := by
    rw [zero_mul]
    exact Int.modEq_zero_iff_dvd.mpr dvd_rfl
  have hy0 : ((2 ^ bit_length n % n : Nat) : Int)
      ≡ 1 * ((2 ^ bit_length n : Nat) : Int) [ZMOD (n : Int)] := by
    rw [one_mul, Int.natCast_mod]
    exact Int.emod_emod_of_dvd _ dvd_rfl
  obtain ⟨a', ha1, ha2⟩ := egcdLoop_gcd_bezout n (2 ^ bit_length n) (2 ^ bit_length n % n)
    (2 ^ bit_length n % n + 1) n 0 1 (by omega) hx0 hy0
  have hg : Nat.gcd (2 ^ bit_length n % n) n = 1 := by
    rw [← Nat.gcd_rec n (2 ^ bit_length n)]
    exact hgcd
  rw [hg] at ha1
  have hv : v = (mod a' (n : Int)).toNat := by
    have hcomp : reciprocal_mod n (2 ^ bit_length n) = some ((mod a' (n : Int)).toNat) := by
      unfold reciprocal_mod
      rw [ha1]
      simp
    rw [hcomp] at hsome
    exact (Option.some.inj hsome).symm
  have hnInt : (0 : Int) < (n : Int) := by exact_mod_cast (show 0 < n by omega)
  exact ⟨v, hsome, hsome, hvlt, hrv, a', ha1, hv, mod_eq_emod a' (n : Int) hnInt⟩

/-- Witness for C6 at `n = 5`. -/
theorem claim_reciprocal_witness :
    ∃ v : Nat, reciprocal_mod 5 (2 ^ bit_length 5) = some v ∧
      mod_mult_inv 5 (2 ^ bit_length 5) = some v ∧ v < 5 ∧
      2 ^ bit_length 5 * v % 5 = 1 ∧
      ∃ a' : Int,
        egcdLoop (2 ^ bit_length 5 % 5 + 1) 5 (2 ^ bit_length 5 % 5) 0 1 = some (1, a') ∧
        v = (mod a' (5 : Int)).toNat ∧ mod a' (5 : Int) = a' % (5 : Int) :=
  claim_reciprocal 5 (by decide) (by decide)

/-- C7: the two variants compute the same public functions: their
`convert_in` agree on every 32-bit input and their `convert_out` agree on
every `x ∈ [0, n)`. -/
theorem claim_variants_agree (N : Nat) (m : Montgomery) (m2 : Montgomery2)
    (hm : mkMontgomery N = .ok m) (hm2 : mkMontgomery2 N = .ok m2) :
    (∀ x : Nat, x < 2 ^ 32 → m.convert_in x = m2.convert_in x) ∧
    (∀ x : Nat, x < N → m.convert_out x = m2.convert_out x) := by
  have hvv : m.r_inv_mod = m2.r_reciprocal := by
    obtain ⟨h1, h2, h3, h4, h5, h6, h7, hrec, h8⟩ := mkMontgomery_inv N m hm
    obtain ⟨g1, g2, g3, g4, g5, g6, hrec2, g7⟩ := mkMontgomery2_inv N m2 hm2
    have h := hrec2
    rw [hrec] at h
    exact Option.some.inj h
  have hbb : m.r_bit_len = m2.r_bit_len := by
    obtain ⟨h1, h2, h3, h4, hbl, h5, h6, h7, h8⟩ := mkMontgomery_inv N m hm
    obtain ⟨g1, g2, g3, g4, hbl2, g5, g6, g7⟩ := mkMontgomery2_inv N m2 hm2
    rw [hbl, hbl2]
  constructor
  · intro x hx
    obtain ⟨h1, h1'⟩ := convert_in_spec N m hm x
    obtain ⟨h2, h2'⟩ := convert_in2_spec N m2 hm2 x hx
    rw [h1, h2, hbb]
  · intro x hx
    obtain ⟨h1, h1'⟩ := convert_out_spec N m hm x hx
    obtain ⟨h2, h2'⟩ := convert_out2_spec N m2 hm2 x
    rw [h1, h2, hvv]

/-- Witness for C7 at `n = 5` (both agreements instantiated by the
theorem itself). -/
theorem claim_variants_agree_witness :
    (∀ x : Nat, x < 2 ^ 32 →
      Montgomery.convert_in ⟨5, 3, 2, 7, 3, 4⟩ x = Montgomery2.convert_in ⟨5, 3, 2, 7, 3⟩ x) ∧
    (∀ x : Nat, x < 5 →
      Montgomery.convert_out ⟨5, 3, 2, 7, 3, 4⟩ x = Montgomery2.convert_out ⟨5, 3, 2, 7, 3⟩ x) :=
  claim_variants_agree 5 ⟨5, 3, 2, 7, 3, 4⟩ ⟨5, 3, 2, 7, 3⟩ rfl rfl

/-- C8: for every odd `q` and bit-width `1 ≤ r ≤ 31`,
`HenselLemma2adicRoot r q` terminates with some `x < 2^r` satisfying
`q·x ≡ −1 (mod 2^r)`, i.e. `2^r` divides `q·x + 1`. -/
theorem claim_hensel (r q : Nat) (hr1 : 1 ≤ r) (hr31 : r ≤ 31) (hq : q % 2 = 1) :
    ∃ x : Nat, HenselLemma2adicRoot r q = some x ∧ x < 2 ^ r ∧ (q * x + 1) % 2 ^ r = 0 := by
  have hinit : (q * 1 + 1) % 2 ^ 1 = 0 := by
    have : (q + 1) % 2 = 0 := by omega
    simpa using this
  obtain ⟨x, hx1, hx2, hx3⟩ :=
    henselOuter_spec q hq (r - 1) 1 1 le_rfl (by omega) (by norm_num) hinit
  rw [show (2 : Nat) ^ 1 = 2 by norm_num] at hx1
  rw [show (2 : Nat) ^ (1 + 1) - 1 = 3 by norm_num] at hx1
  have hrr : 1 + (r - 1) = r := by omega
  rw [hrr] at hx2 hx3
  exact ⟨x, hx1, hx2, hx3⟩

/-- Witness for C8 at `r = 2`, `q = 3`. -/
theorem claim_hensel_witness :
    ∃ x : Nat, HenselLemma2adicRoot 2 3 = some x ∧ x < 2 ^ 2 ∧ (3 * x + 1) % 2 ^ 2 = 0 :=
  claim_hensel 2 3 (by decide) (by decide) (by decide)

/-- C9 (implicit): `convert_in` is total over all 32-bit inputs, not only
`x < n`: both variants return `x·R mod n` for every `uint32` `x`,
main2.cpp by silently reducing `x mod n` first, part_000 by its direct
formula. -/
theorem claim_convert_in_total (N : Nat) (m : Montgomery) (m2 : Montgomery2)
    (hm : mkMontgomery N = .ok m) (hm2 : mkMontgomery2 N = .ok m2)
    (x : Nat) (hx : x < 2 ^ 32) :
    m.convert_in x = x * 2 ^ m.r_bit_len % N ∧ m2.convert_in x = x * 2 ^ m2.r_bit_len % N :=
  ⟨(convert_in_spec N m hm x).1, (convert_in2_spec N m2 hm2 x hx).1⟩

/-- Witness for C9 at `n = 5` with the out-of-range input `x = 7 ≥ n`. -/
theorem claim_convert_in_total_witness :
    Montgomery.convert_in ⟨5, 3, 2, 7, 3, 4⟩ 7 = 7 * 2 ^ (3 : Nat) % 5 ∧
    Montgomery2.convert_in ⟨5, 3, 2, 7, 3⟩ 7 = 7 * 2 ^ (3 : Nat) % 5 :=
  claim_convert_in_total 5 ⟨5, 3, 2, 7, 3, 4⟩ ⟨5, 3, 2, 7, 3⟩ rfl rfl 7 (by decide)

/-- C10 (implicit): under the constructor preconditions every signed
32-bit intermediate of the inverse computation stays in range: the
range-checked machine loop coincides with the exact-integer loop and
succeeds, the final Bezout coefficient satisfies `|a| ≤ n ≤ 2^31 − 1`,
and the final `mod` normalization agrees with the Euclidean modulo and
lands in `[0, n)` (so `result + n` stays below `2^31`). -/
theorem claim_no_overflow (N : Nat) (h3 : 3 ≤ N) (hodd : N % 2 = 1) (hle : N ≤ 2 ^ 31 - 1) :
    egcdLoopChecked (2 ^ bit_length N % N + 1) N (2 ^ bit_length N % N) 0 1
      = egcdLoop (2 ^ bit_length N % N + 1) N (2 ^ bit_length N % N) 0 1 ∧
    ∃ a' : Int,
      egcdLoop (2 ^ bit_length N % N + 1) N (2 ^ bit_length N % N) 0 1 = some (1, a') ∧
      a'.natAbs ≤ N ∧ mod a' (N : Int) = a' % (N : Int) ∧
      0 ≤ mod a' (N : Int) ∧ mod a' (N : Int) < (N : Int) := by
  have hNpos : (0 : Int) < (N : Int) := by exact_mod_cast (show 0 < N by omega)
  obtain ⟨hCE, g, a', hE, ha'⟩ :=
    egcdLoopChecked_spec N hle (2 ^ bit_length N % N) (2 ^ bit_length N % N + 1) N 0 1
      (by omega) (by omega) le_rfl (Nat.mod_lt _ (by omega)) (by simp) (by simp) (by simp)
  have hgcd : Nat.gcd N (2 ^ bit_length N) = 1 := coprime_two_pow N _ hodd
  have hx0 : ((N : Nat) : Int) ≡ 0 * ((2 ^ bit_length N : Nat) : Int) [ZMOD (N : Int)] := by
    rw [zero_mul]
    exact Int.modEq_zero_iff_dvd.mpr dvd_rfl
  have hy0 : ((2 ^ bit_length N % N : Nat) : Int)
      ≡ 1 * ((2 ^ bit_length N : Nat) : Int) [ZMOD (N : Int)] := by
    rw [one_mul, Int.natCast_mod]
    exact Int.emod_emod_of_dvd _ dvd_rfl
  obtain ⟨a2, hb1, hb2⟩ := egcdLoop_gcd_bezout N (2 ^ bit_length N) (2 ^ bit_length N % N)
    (2 ^ bit_length N % N + 1) N 0 1 (by omega) hx0 hy0
  have hg : Nat.gcd (2 ^ bit_length N % N) N = 1 := by
    rw [← Nat.gcd_rec N (2 ^ bit_length N)]
    exact hgcd
  rw [hg] at hb1
  have hpair := Option.some.inj (hE.symm.trans hb1)
  have hg1 : g = 1 := congrArg Prod.fst hpair
  refine ⟨hCE, a', by rw [hE, hg1], ha', mod_eq_emod a' (N : Int) hNpos,
    (mod_nonneg_lt a' (N : Int) hNpos).1, (mod_nonneg_lt a' (N : Int) hNpos).2⟩

/-- Witness for C10 at `n = 5`. -/
theorem claim_no_overflow_witness :
    egcdLoopChecked (2 ^ bit_length 5 % 5 + 1) 5 (2 ^ bit_length 5 % 5) 0 1
      = egcdLoop (2 ^ bit_length 5 % 5 + 1) 5 (2 ^ bit_length 5 % 5) 0 1 ∧
    ∃ a' : Int,
      egcdLoop (2 ^ bit_length 5 % 5 + 1) 5 (2 ^ bit_length 5 % 5) 0 1 = some (1, a') ∧
      a'.natAbs ≤ 5 ∧ mod a' (5 : Int) = a' % (5 : Int) ∧
      0 ≤ mod a' (5 : Int) ∧ mod a' (5 : Int) < (5 : Int) :=
  claim_no_overflow 5 (by decide) (by decide) (by norm_num)
